import Mathlib

/-!
Verification of the product-import service (app/services/product_service.py).

The development shallowly embeds the import pipeline: CSV rows, the
preprocessing step (pandas drop_duplicates on the raw sku followed by
strip/lower normalization), the existing-SKU snapshot (SELECT LOWER(sku)),
the batched insert loop with its cancellation check and progress records,
and the surrounding import_products_from_csv driver with its
success/failure bookkeeping.  The CRUD operations create_product and
delete_product are embedded over an explicit product table.

Python's str.lower / str.strip are modelled by pyLower / pyStrip over the
string's character list (ASCII case folding, as in Lean's Char.toLower).
The SQLite UNIQUE constraint on products.sku is modelled inside
dbInsertBatch, which rejects a staged row whose sku is already present.
An exception escaping a Python function is modelled by an explicit
`raised` result.
-/

namespace ProductImporter

/-- A parsed CSV row: name, sku, and description (the description column
defaults to the empty string when absent). -/
structure Row where
  name : String
  sku : String
  description : String
deriving DecidableEq

/-- A persisted row of the products table, as written by the import's
INSERT statement (name, sku, description, active). -/
structure DBRow where
  name : String
  sku : String
  description : String
  active : Bool
deriving DecidableEq

/-- One entry published to progress_store: progress percentage, status
string, completed flag, optional imported count, error flag, cancelled
flag (absent dict keys are modelled by none / false). -/
structure Record where
  progress : Nat
  status : String
  completed : Bool
  imported : Option Nat
  error : Bool
  cancelled : Bool
deriving DecidableEq

/-- Python str.lower (ASCII case folding over the character list). -/
def pyLower (s : String) : String := ⟨s.data.map Char.toLower⟩

/-- Python str.strip: drop leading and trailing whitespace characters. -/
def pyStrip (s : String) : String :=
  ⟨((s.data.dropWhile Char.isWhitespace).reverse.dropWhile Char.isWhitespace).reverse⟩

/-- pandas df.drop_duplicates(subset=['sku'], keep='last'): a row is kept
exactly when no later row carries the same (raw) sku. -/
def dropDupKeepLast : List Row → List Row
  | [] => []
  | r :: rs =>
    if ∃ x ∈ rs, x.sku = r.sku then dropDupKeepLast rs
    else r :: dropDupKeepLast rs

/-- _preprocess_dataframe: drop in-file duplicates on the raw sku, THEN
normalize each sku with strip and lower (this order is the source's). -/
def preprocessDataframe (rows : List Row) : List Row :=
  (dropDupKeepLast rows).map (fun r => ⟨r.name, pyLower (pyStrip r.sku), r.description⟩)

/-- _get_existing_skus: SELECT LOWER(sku) FROM products. -/
def getExistingSkus (table : List DBRow) : List String :=
  table.map (fun p => pyLower p.sku)

/-- The per-batch staging loop of _process_batches: for each row, lower
its sku again, skip it when the sku is already in the existing set,
otherwise stage an insert, add the sku to the set, and bump the count.
Returns (updated existing set, staged rows in order, imported delta). -/
def stageBatch (ex : List String) : List Row → List String × List DBRow × Nat
  | [] => (ex, [], 0)
  | r :: rs =>
    if pyLower r.sku ∈ ex then stageBatch ex rs
    else
      let rest := stageBatch (pyLower r.sku :: ex) rs
      (rest.1, ⟨r.name, pyLower r.sku, r.description, true⟩ :: rest.2.1, rest.2.2 + 1)

/-- The bulk INSERT of one batch under the UNIQUE constraint on sku: rows
are inserted in order and a sku already present in the table raises an
integrity error (the whole uncommitted batch is then discarded by the
caller's rollback, so the error result carries no partial rows). -/
def dbInsertBatch : List DBRow → List DBRow → Except String (List DBRow)
  | table, [] => .ok table
  | table, p :: ps =>
    if ∃ t ∈ table, t.sku = p.sku then .error "UNIQUE constraint failed: products.sku"
    else dbInsertBatch (table ++ [p]) ps

/-- The record published before read_csv. -/
def loadingRecord : Record := ⟨5, "Loading CSV...", false, none, false, false⟩

/-- The record published before preprocessing. -/
def preprocRecord : Record := ⟨10, "Preprocessing data...", false, none, false, false⟩

/-- The terminal record published when the cancellation flag is observed. -/
def cancelledRecord : Record := ⟨0, "Cancelled by user", true, none, false, true⟩

/-- The terminal record published by the except-branch of
import_products_from_csv. -/
def errorRecord (msg : String) : Record := ⟨0, s!"Error: {msg}", true, none, true, false⟩

/-- The completion record published at the end of import_products_from_csv. -/
def successRecord (imported : Nat) : Record :=
  ⟨100, s!"Completed! {imported} products imported", true, some imported, false, false⟩

/-- Progress percentage after the batch starting at offset i:
min(95, int((i + batch_size) / len(df) * 85) + 10). -/
def batchProgress (n bs i : Nat) : Nat := min 95 ((i + bs) * 85 / n + 10)

/-- The progress record published after the batch starting at offset i. -/
def batchRecord (n bs i imported : Nat) : Record :=
  ⟨batchProgress n bs i, s!"Processing... {i + bs}/{n} ({imported} imported)",
    false, none, false, false⟩

/-- The worker state threaded through the batch loop: imported count,
existing-sku set, committed table, and the records published so far. -/
structure ImportState where
  imported : Nat
  existing : List String
  table : List DBRow
  records : List Record
deriving DecidableEq

/-- Outcome of _process_batches: normal return, return after observing the
cancellation flag, or an exception escaping from a batch insert. -/
inductive BatchesResult where
  | done (s : ImportState)
  | cancelledRes (s : ImportState)
  | failedRes (s : ImportState) (msg : String)
deriving DecidableEq

/-- The state carried by a BatchesResult. -/
def resState : BatchesResult → ImportState
  | .done s => s
  | .cancelledRes s => s
  | .failedRes s _ => s

/-- The batch loop of _process_batches over a list of batches, where k is
the batch ordinal (the Python offset is i = k * batch_size), n the length
of the preprocessed dataframe, and cancel k the value read from
cancel_flags at the k-th boundary. -/
def processBatchesGo (cancel : Nat → Bool) (n bs : Nat) :
    List (List Row) → Nat → ImportState → BatchesResult
  | [], _, s => .done s
  | b :: rest, k, s =>
    if cancel k then
      .cancelledRes ⟨s.imported, s.existing, s.table, s.records ++ [cancelledRecord]⟩
    else
      let st := stageBatch s.existing b
      match dbInsertBatch s.table st.2.1 with
      | .error msg => .failedRes s msg
      | .ok t' =>
        processBatchesGo cancel n bs rest (k + 1)
          ⟨s.imported + st.2.2, st.1, t',
            s.records ++ [batchRecord n bs (k * bs) (s.imported + st.2.2)]⟩

/-- Fuel-indexed slicing of the dataframe into contiguous batches
(df.iloc[i:i+batch_size] for i in range(0, len(df), batch_size)). -/
def chunksF {α : Type} (bs : Nat) : Nat → List α → List (List α)
  | 0, _ => []
  | _ + 1, [] => []
  | fuel + 1, x :: xs => (x :: xs).take bs :: chunksF bs fuel ((x :: xs).drop bs)

/-- The batches of a list; the list's length is always enough fuel. -/
def chunks {α : Type} (bs : Nat) (l : List α) : List (List α) := chunksF bs l.length l

/-- The hard-coded batch size of _process_batches. -/
def batchSize : Nat := 5000

/-- _process_batches: run the batch loop from the initial state (0
imported, the supplied existing-sku snapshot, the current table, no
records yet). -/
def processBatches (rows : List Row) (table : List DBRow) (cancel : Nat → Bool)
    (existing : List String) : BatchesResult :=
  processBatchesGo cancel rows.length batchSize (chunks batchSize rows) 0 ⟨0, existing, table, []⟩

/-- The value import_products_from_csv hands back to its caller: the
returned dict, or the exception re-raised by the except-branch. -/
inductive ImportResult where
  | ok (imported totalProcessed : Nat)
  | raised (msg : String)
deriving DecidableEq

/-- Observable effect of one call to import_products_from_csv: its result
(or escaped exception), the products table afterwards, the sequence of
records published to progress_store, and whether the source file was
deleted. -/
structure ImportRun where
  result : ImportResult
  table : List DBRow
  records : List Record
  fileDeleted : Bool
deriving DecidableEq

/-- The tail of import_products_from_csv after _process_batches returns:
a batch-level exception reaches the except-branch (error record, rollback,
re-raise, file kept); a normal OR cancelled return falls through to the
cleanup path, which deletes the file and publishes the completion
record. -/
def importFinish (total : Nat) : BatchesResult → ImportRun
  | .failedRes s msg =>
    ⟨.raised msg, s.table, loadingRecord :: preprocRecord :: s.records ++ [errorRecord msg],
      false⟩
  | .done s =>
    ⟨.ok s.imported total, s.table,
      loadingRecord :: preprocRecord :: s.records ++ [successRecord s.imported], true⟩
  | .cancelledRes s =>
    ⟨.ok s.imported total, s.table,
      loadingRecord :: preprocRecord :: s.records ++ [successRecord s.imported], true⟩

/-- import_products_from_csv itself: publish the loading record, parse
(re-raising on a parse error after publishing the error record), publish
the preprocessing record, preprocess, snapshot the existing skus, run the
batch loop, and finish as above. -/
def importProductsFromCsv : Except String (List Row) → List DBRow → (Nat → Bool) → ImportRun
  | .error msg, table, _ => ⟨.raised msg, table, [loadingRecord, errorRecord msg], false⟩
  | .ok rows, table, cancel =>
    importFinish rows.length
      (processBatches (preprocessDataframe rows) table cancel (getExistingSkus table))

/-- A run during which nobody sets the cancellation flag. -/
def cancelNone : Nat → Bool := fun _ => false

/-- A product row of the CRUD operations, with its assigned identifier. -/
structure Product where
  id : Nat
  name : String
  sku : String
  description : String
  active : Bool
deriving DecidableEq

/-- The identifier the database assigns to the next inserted row. -/
def nextId (table : List Product) : Nat := (table.map (fun p => p.id)).foldr Nat.max 0 + 1

/-- create_product: reject when an existing row's sku matches the input
case-insensitively, otherwise insert with sku = sku.lower() (no strip). -/
def create_product (table : List Product) (name sku description : String) (active : Bool) :
    Except String (List Product × Product) :=
  if ∃ p ∈ table, pyLower p.sku = pyLower sku then
    .error s!"Product with SKU '{sku}' already exists"
  else
    (fun p => .ok (table ++ [p], p)) (⟨nextId table, name, pyLower sku, description, active⟩ : Product)

/-- delete_product: look the product up by id; if absent return False and
leave the table alone, otherwise delete that row and return True. -/
def delete_product (table : List Product) (product_id : Nat) : Bool × List Product :=
  match table.find? (fun p => p.id == product_id) with
  | none => (false, table)
  | some _ => (true, table.eraseP (fun p => p.id == product_id))

/-- The file of the spec's dedup scenario. -/
def scenarioRows : List Row :=
  [⟨"A", "sku-1", "d1"⟩, ⟨"B", "SKU-1 ", "d2"⟩, ⟨"C", "sku-2", "d3"⟩]

/-- The progress values of the not-yet-completed records, in publication order. -/
def runningProgresses (rs : List Record) : List Nat :=
  (rs.filter (fun r => !r.completed)).map Record.progress


theorem toNat_charOfNat_valid (n : Nat) (h : n.isValidChar) : (Char.ofNat n).toNat = n := by
  rw [Char.ofNat, dif_pos h]
  rfl

theorem charToLower_toLower (c : Char) : c.toLower.toLower = c.toLower := by
  by_cases h : c.toNat ≥ 65 ∧ c.toNat ≤ 90
  · have h1 : c.toLower = Char.ofNat (c.toNat + 32) := by
      show (if c.toNat ≥ 65 ∧ c.toNat ≤ 90 then Char.ofNat (c.toNat + 32) else c) =
        Char.ofNat (c.toNat + 32)
      rw [if_pos h]
    have hv : (c.toNat + 32).isValidChar := Or.inl (by omega)
    rw [h1]
    show (if (Char.ofNat (c.toNat + 32)).toNat ≥ 65 ∧ (Char.ofNat (c.toNat + 32)).toNat ≤ 90 then
        Char.ofNat ((Char.ofNat (c.toNat + 32)).toNat + 32) else Char.ofNat (c.toNat + 32)) =
      Char.ofNat (c.toNat + 32)
    rw [toNat_charOfNat_valid _ hv, if_neg (by omega)]
  · have h1 : c.toLower = c := by
      show (if c.toNat ≥ 65 ∧ c.toNat ≤ 90 then Char.ofNat (c.toNat + 32) else c) = c
      rw [if_neg h]
    rw [h1, h1]

theorem pyLower_pyLower (s : String) : pyLower (pyLower s) = pyLower s := by
  unfold pyLower
  simp only [List.map_map]
  congr 1
  induction s.data with
  | nil => rfl
  | cons c cs ih => simp [Function.comp, charToLower_toLower, ih]


theorem stage_count (b : List Row) : ∀ ex, (stageBatch ex b).2.2 = (stageBatch ex b).2.1.length := by
  induction b with
  | nil => intro ex; rfl
  | cons r rs ih =>
    intro ex
    by_cases h : pyLower r.sku ∈ ex
    · simp only [stageBatch, if_pos h]; exact ih ex
    · simp only [stageBatch, if_neg h, List.length_cons]
      rw [ih (pyLower r.sku :: ex)]

theorem stage_staged (b : List Row) : ∀ ex, ∀ p ∈ (stageBatch ex b).2.1,
    p.sku ∉ ex ∧ p.active = true ∧
      ∃ r ∈ b, p.name = r.name ∧ p.sku = pyLower r.sku ∧ p.description = r.description := by
  induction b with
  | nil => intro ex p hp; simp [stageBatch] at hp
  | cons r rs ih =>
    intro ex p hp
    by_cases h : pyLower r.sku ∈ ex
    · simp only [stageBatch, if_pos h] at hp
      obtain ⟨h1, h2, r', hr', h3⟩ := ih ex p hp
      exact ⟨h1, h2, r', List.mem_cons_of_mem _ hr', h3⟩
    · simp only [stageBatch, if_neg h, List.mem_cons] at hp
      rcases hp with rfl | hp
      · exact ⟨h, rfl, r, List.mem_cons_self _ _, rfl, rfl, rfl⟩
      · obtain ⟨h1, h2, r', hr', h3⟩ := ih (pyLower r.sku :: ex) p hp
        refine ⟨fun hc => h1 (List.mem_cons_of_mem _ hc), h2, r', List.mem_cons_of_mem _ hr', h3⟩

theorem stage_ex_mono (b : List Row) : ∀ ex, ∀ x ∈ ex, x ∈ (stageBatch ex b).1 := by
  induction b with
  | nil => intro ex x hx; exact hx
  | cons r rs ih =>
    intro ex x hx
    by_cases h : pyLower r.sku ∈ ex
    · simp only [stageBatch, if_pos h]; exact ih ex x hx
    · simp only [stageBatch, if_neg h]
      exact ih (pyLower r.sku :: ex) x (List.mem_cons_of_mem _ hx)

theorem stage_covers (b : List Row) : ∀ ex, ∀ r ∈ b, pyLower r.sku ∈ (stageBatch ex b).1 := by
  induction b with
  | nil => intro ex r hr; simp at hr
  | cons r rs ih =>
    intro ex r' hr'
    rcases List.mem_cons.1 hr' with rfl | hr'
    · by_cases h : pyLower r'.sku ∈ ex
      · simp only [stageBatch, if_pos h]; exact stage_ex_mono rs ex _ h
      · simp only [stageBatch, if_neg h]
        exact stage_ex_mono rs _ _ (List.mem_cons_self _ _)
    · by_cases h : pyLower r.sku ∈ ex
      · simp only [stageBatch, if_pos h]; exact ih ex r' hr'
      · simp only [stageBatch, if_neg h]; exact ih _ r' hr'

theorem stage_ex_src (b : List Row) : ∀ ex, ∀ x ∈ (stageBatch ex b).1,
    x ∈ ex ∨ ∃ p ∈ (stageBatch ex b).2.1, p.sku = x := by
  induction b with
  | nil => intro ex x hx; exact Or.inl hx
  | cons r rs ih =>
    intro ex x hx
    by_cases h : pyLower r.sku ∈ ex
    · simp only [stageBatch, if_pos h] at hx ⊢; exact ih ex x hx
    · simp only [stageBatch, if_neg h] at hx ⊢
      rcases ih _ x hx with hx' | ⟨p, hp, hps⟩
      · rcases List.mem_cons.1 hx' with rfl | hx''
        · exact Or.inr ⟨_, List.mem_cons_self _ _, rfl⟩
        · exact Or.inl hx''
      · exact Or.inr ⟨p, List.mem_cons_of_mem _ hp, hps⟩

theorem stage_nodup (b : List Row) : ∀ ex,
    ((stageBatch ex b).2.1.map (fun p => p.sku)).Nodup := by
  induction b with
  | nil => intro ex; simp [stageBatch]
  | cons r rs ih =>
    intro ex
    by_cases h : pyLower r.sku ∈ ex
    · simp only [stageBatch, if_pos h]; exact ih ex
    · simp only [stageBatch, if_neg h, List.map_cons, List.nodup_cons]
      refine ⟨fun hc => ?_, ih _⟩
      obtain ⟨p, hp, hps⟩ := List.mem_map.1 hc
      have := (stage_staged rs _ p hp).1
      exact this (hps ▸ List.mem_cons_self _ _)

theorem stage_skipAll (b : List Row) : ∀ ex, (∀ r ∈ b, pyLower r.sku ∈ ex) →
    stageBatch ex b = (ex, [], 0) := by
  induction b with
  | nil => intro ex _; rfl
  | cons r rs ih =>
    intro ex hall
    have h := hall r (List.mem_cons_self _ _)
    simp only [stageBatch, if_pos h]
    exact ih ex (fun r' hr' => hall r' (List.mem_cons_of_mem _ hr'))


theorem dbInsert_ok_shape (nps : List DBRow) : ∀ table t',
    dbInsertBatch table nps = .ok t' → t' = table ++ nps := by
  induction nps with
  | nil => intro table t' h; simp only [dbInsertBatch] at h; cases h; simp
  | cons p ps ih =>
    intro table t' h
    by_cases hc : ∃ t ∈ table, t.sku = p.sku
    · simp only [dbInsertBatch, if_pos hc] at h; cases h
    · simp only [dbInsertBatch, if_neg hc] at h
      have := ih (table ++ [p]) t' h
      simp [this]

theorem dbInsert_ok (nps : List DBRow) : ∀ table,
    (∀ p ∈ nps, ∀ t ∈ table, t.sku ≠ p.sku) → ((nps.map (fun p => p.sku)).Nodup) →
    dbInsertBatch table nps = .ok (table ++ nps) := by
  induction nps with
  | nil => intro table _ _; simp [dbInsertBatch]
  | cons p ps ih =>
    intro table hfresh hnd
    have hc : ¬ ∃ t ∈ table, t.sku = p.sku := by
      rintro ⟨t, ht, hts⟩
      exact hfresh p (List.mem_cons_self _ _) t ht hts
    simp only [dbInsertBatch, if_neg hc]
    rw [ih (table ++ [p]) ?_ ?_]
    · simp
    · intro q hq t ht
      rcases List.mem_append.1 ht with ht' | ht'
      · exact hfresh q (List.mem_cons_of_mem _ hq) t ht'
      · rcases List.mem_singleton.1 ht' with rfl
        simp only [List.map_cons, List.nodup_cons] at hnd
        intro hc'
        exact hnd.1 (hc' ▸ List.mem_map_of_mem _ hq)
    · simpa using hnd.of_cons


theorem pb_structure (cancel : Nat → Bool) (n bs : Nat) (L : List (List Row)) :
    ∀ k s, ∃ new,
      (resState (processBatchesGo cancel n bs L k s)).table = s.table ++ new ∧
      (resState (processBatchesGo cancel n bs L k s)).imported = s.imported + new.length ∧
      (∀ p ∈ new, p.sku ∉ s.existing ∧ p.active = true ∧
        ∃ r ∈ L.flatten, p.name = r.name ∧ p.sku = pyLower r.sku ∧ p.description = r.description) ∧
      (∀ x ∈ s.existing, x ∈ (resState (processBatchesGo cancel n bs L k s)).existing) := by
  induction L with
  | nil =>
    intro k s
    exact ⟨[], by simp [processBatchesGo, resState], by simp [processBatchesGo, resState],
      by simp, by simp [processBatchesGo, resState]⟩
  | cons b rest ih =>
    intro k s
    by_cases hcancel : cancel k
    · refine ⟨[], ?_, ?_, by simp, ?_⟩ <;>
        simp [processBatchesGo, hcancel, resState]
    · rcases hE : dbInsertBatch s.table (stageBatch s.existing b).2.1 with msg | t'
      · refine ⟨[], ?_, ?_, by simp, ?_⟩ <;>
          simp [processBatchesGo, hcancel, hE, resState]
      · have hshape := dbInsert_ok_shape _ _ _ hE
        obtain ⟨new', h1, h2, h3, h4⟩ := ih (k + 1)
          ⟨s.imported + (stageBatch s.existing b).2.2, (stageBatch s.existing b).1, t',
            s.records ++ [batchRecord n bs (k * bs) (s.imported + (stageBatch s.existing b).2.2)]⟩
        refine ⟨(stageBatch s.existing b).2.1 ++ new', ?_, ?_, ?_, ?_⟩
        · simp only [processBatchesGo, if_neg hcancel, hE]
          rw [h1]
          simp [hshape]
        · simp only [processBatchesGo, if_neg hcancel, hE]
          rw [h2]
          simp only [List.length_append]
          rw [stage_count]
          omega
        · intro p hp
          rcases List.mem_append.1 hp with hp' | hp'
          · obtain ⟨hn, ha, r, hr, hrest⟩ := stage_staged b s.existing p hp'
            exact ⟨hn, ha, r, by simp [List.mem_append.2 (Or.inl hr)], hrest⟩
          · obtain ⟨hn, ha, r, hr, hrest⟩ := h3 p hp'
            refine ⟨fun hc => hn (stage_ex_mono b s.existing _ hc), ha, r, ?_, hrest⟩
            simp only [List.flatten] at hr ⊢
            exact List.mem_append.2 (Or.inr hr)
        · intro x hx
          simp only [processBatchesGo, if_neg hcancel, hE]
          exact h4 x (stage_ex_mono b s.existing x hx)


/-- The sku stored by the staging loop is already lowercase. -/
theorem staged_sku_fixed (b : List Row) (ex : List String) :
    ∀ p ∈ (stageBatch ex b).2.1, pyLower p.sku = p.sku := by
  intro p hp
  obtain ⟨_, _, r, _, _, hsku, _⟩ := stage_staged b ex p hp
  rw [hsku, pyLower_pyLower]

theorem staged_fresh (b : List Row) (ex : List String) (table : List DBRow)
    (hInv : ∀ t ∈ table, pyLower t.sku ∈ ex) :
    ∀ p ∈ (stageBatch ex b).2.1, ∀ t ∈ table, t.sku ≠ p.sku := by
  intro p hp t ht heq
  obtain ⟨hnotin, _, _⟩ := stage_staged b ex p hp
  have h1 : pyLower t.sku ∈ ex := hInv t ht
  rw [heq, staged_sku_fixed b ex p hp] at h1
  exact hnotin h1

theorem staged_insert_ok (b : List Row) (ex : List String) (table : List DBRow)
    (hInv : ∀ t ∈ table, pyLower t.sku ∈ ex) :
    dbInsertBatch table (stageBatch ex b).2.1 = .ok (table ++ (stageBatch ex b).2.1) :=
  dbInsert_ok _ _ (fun p hp t ht => staged_fresh b ex table hInv p hp t ht) (stage_nodup b ex)

theorem inv_preserved (b : List Row) (ex : List String) (table : List DBRow)
    (hInv : ∀ t ∈ table, pyLower t.sku ∈ ex) :
    ∀ t ∈ table ++ (stageBatch ex b).2.1, pyLower t.sku ∈ (stageBatch ex b).1 := by
  intro t ht
  rcases List.mem_append.1 ht with ht' | ht'
  · exact stage_ex_mono b ex _ (hInv t ht')
  · rw [staged_sku_fixed b ex t ht']
    obtain ⟨_, _, r, hr, _, hsku, _⟩ := stage_staged b ex t ht'
    rw [hsku]
    exact stage_covers b ex r hr

theorem pb_done_of_cancelNone (n bs : Nat) (L : List (List Row)) :
    ∀ k s, (∀ t ∈ s.table, pyLower t.sku ∈ s.existing) →
    ∃ s', processBatchesGo cancelNone n bs L k s = .done s' := by
  induction L with
  | nil => intro k s _; exact ⟨s, rfl⟩
  | cons b rest ih =>
    intro k s hInv
    have hE := staged_insert_ok b s.existing s.table hInv
    obtain ⟨s', hs'⟩ := ih (k + 1)
      ⟨s.imported + (stageBatch s.existing b).2.2, (stageBatch s.existing b).1,
        s.table ++ (stageBatch s.existing b).2.1,
        s.records ++ [batchRecord n bs (k * bs) (s.imported + (stageBatch s.existing b).2.2)]⟩
      (inv_preserved b s.existing s.table hInv)
    refine ⟨s', ?_⟩
    simp only [processBatchesGo, cancelNone, if_neg (by simp : ¬ false = true), hE]
    exact hs'

theorem pb_covers (n bs : Nat) (L : List (List Row)) :
    ∀ k s, (∀ t ∈ s.table, pyLower t.sku ∈ s.existing) →
    ∀ r ∈ L.flatten, pyLower r.sku ∈ (resState (processBatchesGo cancelNone n bs L k s)).existing := by
  induction L with
  | nil => intro k s _ r hr; simp at hr
  | cons b rest ih =>
    intro k s hInv r hr
    have hE := staged_insert_ok b s.existing s.table hInv
    simp only [processBatchesGo, cancelNone, if_neg (by simp : ¬ false = true), hE]
    have hInv' := inv_preserved b s.existing s.table hInv
    rw [List.flatten_cons] at hr
    rcases List.mem_append.1 hr with hr' | hr'
    · obtain ⟨new', _, _, _, hmono⟩ := pb_structure cancelNone n bs rest (k + 1)
        ⟨s.imported + (stageBatch s.existing b).2.2, (stageBatch s.existing b).1,
          s.table ++ (stageBatch s.existing b).2.1,
          s.records ++ [batchRecord n bs (k * bs) (s.imported + (stageBatch s.existing b).2.2)]⟩
      exact hmono _ (stage_covers b s.existing r hr')
    · exact ih (k + 1) _ hInv' r hr'

theorem pb_existing_in_table (n bs : Nat) (L : List (List Row)) :
    ∀ k s, (∀ t ∈ s.table, pyLower t.sku ∈ s.existing) →
    (∀ x ∈ s.existing, x ∈ getExistingSkus s.table) →
    ∀ x ∈ (resState (processBatchesGo cancelNone n bs L k s)).existing,
      x ∈ getExistingSkus (resState (processBatchesGo cancelNone n bs L k s)).table := by
  induction L with
  | nil => intro k s _ h2 x hx; exact h2 x hx
  | cons b rest ih =>
    intro k s hInv hInv2 x hx
    have hE := staged_insert_ok b s.existing s.table hInv
    simp only [processBatchesGo, cancelNone, if_neg (by simp : ¬ false = true), hE] at hx ⊢
    refine ih (k + 1) _ (inv_preserved b s.existing s.table hInv) ?_ x hx
    intro y hy
    rcases stage_ex_src b s.existing y hy with hy' | ⟨p, hp, hps⟩
    · have := hInv2 y hy'
      simp only [getExistingSkus, List.mem_map] at this ⊢
      obtain ⟨t, ht, hts⟩ := this
      exact ⟨t, List.mem_append.2 (Or.inl ht), hts⟩
    · simp only [getExistingSkus, List.mem_map]
      exact ⟨p, List.mem_append.2 (Or.inr hp), by rw [staged_sku_fixed b s.existing p hp, hps]⟩

theorem pb_skipAll (cancel : Nat → Bool) (n bs : Nat) (L : List (List Row)) :
    ∀ k s, (∀ r ∈ L.flatten, pyLower r.sku ∈ s.existing) →
    (resState (processBatchesGo cancel n bs L k s)).table = s.table ∧
    (resState (processBatchesGo cancel n bs L k s)).imported = s.imported ∧
    ((∀ k', cancel k' = false) →
      ∃ recs, processBatchesGo cancel n bs L k s = .done ⟨s.imported, s.existing, s.table, recs⟩) := by
  induction L with
  | nil =>
    intro k s _
    exact ⟨rfl, rfl, fun _ => ⟨s.records, rfl⟩⟩
  | cons b rest ih =>
    intro k s hall
    have hallb : ∀ r ∈ b, pyLower r.sku ∈ s.existing := by
      intro r hr
      exact hall r (by rw [List.flatten_cons]; exact List.mem_append.2 (Or.inl hr))
    have hstage := stage_skipAll b s.existing hallb
    by_cases hcancel : cancel k
    · refine ⟨?_, ?_, ?_⟩
      · simp [processBatchesGo, hcancel, resState]
      · simp [processBatchesGo, hcancel, resState]
      · intro hcn; rw [hcn k] at hcancel; simp at hcancel
    · have hE : dbInsertBatch s.table (stageBatch s.existing b).2.1 = .ok s.table := by
        rw [hstage]; simp [dbInsertBatch]
      have hrest : ∀ r ∈ rest.flatten, pyLower r.sku ∈ s.existing := by
        intro r hr
        exact hall r (by rw [List.flatten_cons]; exact List.mem_append.2 (Or.inr hr))
      obtain ⟨h1, h2, h3⟩ := ih (k + 1)
        ⟨s.imported + (stageBatch s.existing b).2.2, (stageBatch s.existing b).1, s.table,
          s.records ++ [batchRecord n bs (k * bs) (s.imported + (stageBatch s.existing b).2.2)]⟩
        (by rw [hstage]; exact hrest)
      refine ⟨?_, ?_, ?_⟩
      · simp only [processBatchesGo, if_neg hcancel, hE]
        rw [h1]
      · simp only [processBatchesGo, if_neg hcancel, hE]
        rw [h2, hstage]
        simp
      · intro hcn
        obtain ⟨recs, hr⟩ := h3 hcn
        refine ⟨recs, ?_⟩
        simp only [processBatchesGo, if_neg hcancel, hE]
        rw [hr, hstage]
        simp


theorem batchProgress_le_95 (n bs i : Nat) : batchProgress n bs i ≤ 95 := min_le_left _ _

theorem ten_le_batchProgress (n bs i : Nat) : 10 ≤ batchProgress n bs i :=
  le_min (by norm_num) (Nat.le_add_left _ _)

theorem batchProgress_mono (n bs : Nat) {i j : Nat} (h : i ≤ j) :
    batchProgress n bs i ≤ batchProgress n bs j :=
  min_le_min (le_refl _) (by
    have := Nat.div_le_div_right (c := n) (Nat.mul_le_mul_right 85 (by omega : i + bs ≤ j + bs))
    omega)

theorem runningProgresses_append (a b : List Record) :
    runningProgresses (a ++ b) = runningProgresses a ++ runningProgresses b := by
  simp [runningProgresses, List.filter_append]

theorem pb_records_mem (cancel : Nat → Bool) (n bs : Nat) (L : List (List Row)) :
    ∀ k s, ∀ rec ∈ (resState (processBatchesGo cancel n bs L k s)).records,
      rec ∈ s.records ∨ rec = cancelledRecord ∨ ∃ i imp, rec = batchRecord n bs i imp := by
  induction L with
  | nil => intro k s rec h; exact Or.inl h
  | cons b rest ih =>
    intro k s rec h
    by_cases hcancel : cancel k
    · simp only [processBatchesGo, if_pos hcancel, resState] at h
      rcases List.mem_append.1 h with h' | h'
      · exact Or.inl h'
      · exact Or.inr (Or.inl (List.mem_singleton.1 h'))
    · rcases hE : dbInsertBatch s.table (stageBatch s.existing b).2.1 with msg | t'
      · simp only [processBatchesGo, if_neg hcancel, hE, resState] at h
        exact Or.inl h
      · simp only [processBatchesGo, if_neg hcancel, hE] at h
        rcases ih (k + 1) _ rec h with h' | h' | h'
        · rcases List.mem_append.1 h' with h'' | h''
          · exact Or.inl h''
          · exact Or.inr (Or.inr ⟨k * bs, _, List.mem_singleton.1 h''⟩)
        · exact Or.inr (Or.inl h')
        · exact Or.inr (Or.inr h')

theorem pb_pairwise (cancel : Nat → Bool) (n bs : Nat) (L : List (List Row)) :
    ∀ k s, List.Pairwise (· ≤ ·) (runningProgresses s.records) →
    (∀ x ∈ runningProgresses s.records, x ≤ batchProgress n bs (k * bs)) →
    List.Pairwise (· ≤ ·)
      (runningProgresses (resState (processBatchesGo cancel n bs L k s)).records) := by
  induction L with
  | nil => intro k s h1 _; exact h1
  | cons b rest ih =>
    intro k s h1 h2
    by_cases hcancel : cancel k
    · simp only [processBatchesGo, if_pos hcancel, resState, runningProgresses_append]
      have : runningProgresses [cancelledRecord] = [] := rfl
      rw [this, List.append_nil]
      exact h1
    · rcases hE : dbInsertBatch s.table (stageBatch s.existing b).2.1 with msg | t'
      · simp only [processBatchesGo, if_neg hcancel, hE, resState]
        exact h1
      · simp only [processBatchesGo, if_neg hcancel, hE]
        refine ih (k + 1) _ ?_ ?_
        · simp only [runningProgresses_append]
          have hb : runningProgresses [batchRecord n bs (k * bs)
              (s.imported + (stageBatch s.existing b).2.2)] = [batchProgress n bs (k * bs)] := rfl
          rw [hb]
          refine List.pairwise_append.2 ⟨h1, List.pairwise_singleton _ _, ?_⟩
          intro a ha b' hb'
          rw [List.mem_singleton.1 hb']
          exact h2 a ha
        · simp only [runningProgresses_append]
          have hb : runningProgresses [batchRecord n bs (k * bs)
              (s.imported + (stageBatch s.existing b).2.2)] = [batchProgress n bs (k * bs)] := rfl
          rw [hb]
          intro x hx
          have hmono : batchProgress n bs (k * bs) ≤ batchProgress n bs ((k + 1) * bs) :=
            batchProgress_mono n bs (Nat.mul_le_mul_right bs (by omega : k ≤ k + 1))
          rcases List.mem_append.1 hx with hx' | hx'
          · exact le_trans (h2 x hx') hmono
          · rw [List.mem_singleton.1 hx']; exact hmono

theorem chunksF_flatten {α : Type} (bs : Nat) (hbs : 0 < bs) :
    ∀ fuel (l : List α), l.length ≤ fuel → (chunksF bs fuel l).flatten = l := by
  intro fuel
  induction fuel with
  | zero =>
    intro l hl
    rw [List.length_eq_zero.1 (Nat.le_zero.1 hl)]
    rfl
  | succ fuel ih =>
    intro l hl
    match l with
    | [] => rfl
    | x :: xs =>
      simp only [chunksF, List.flatten_cons]
      have hlen : ((x :: xs).drop bs).length ≤ fuel := by
        simp only [List.length_drop, List.length_cons]
        simp only [List.length_cons] at hl
        omega
      rw [ih ((x :: xs).drop bs) hlen]
      exact List.take_append_drop bs (x :: xs)

theorem chunks_flatten {α : Type} (bs : Nat) (hbs : 0 < bs) (l : List α) :
    (chunks bs l).flatten = l :=
  chunksF_flatten bs hbs l.length l (le_refl _)

theorem dropDup_sub (rows : List Row) : ∀ r ∈ dropDupKeepLast rows, r ∈ rows := by
  induction rows with
  | nil => intro r hr; exact hr
  | cons x xs ih =>
    intro r hr
    by_cases h : ∃ y ∈ xs, y.sku = x.sku
    · simp only [dropDupKeepLast, if_pos h] at hr
      exact List.mem_cons_of_mem _ (ih r hr)
    · simp only [dropDupKeepLast, if_neg h] at hr
      rcases List.mem_cons.1 hr with rfl | hr'
      · exact List.mem_cons_self _ _
      · exact List.mem_cons_of_mem _ (ih r hr')

theorem preprocess_src (rows : List Row) : ∀ r ∈ preprocessDataframe rows,
    ∃ r₀ ∈ rows, r.name = r₀.name ∧ r.sku = pyLower (pyStrip r₀.sku) ∧
      r.description = r₀.description := by
  intro r hr
  obtain ⟨r', hr', heq⟩ := List.mem_map.1 hr
  exact ⟨r', dropDup_sub rows r' hr', by rw [← heq], by rw [← heq], by rw [← heq]⟩


theorem batchSize_pos : 0 < batchSize := by norm_num [batchSize]

theorem import_table_eq (rows : List Row) (table : List DBRow) (cancel : Nat → Bool) :
    (importProductsFromCsv (.ok rows) table cancel).table =
      (resState (processBatches (preprocessDataframe rows) table cancel
        (getExistingSkus table))).table := by
  rcases hP : processBatches (preprocessDataframe rows) table cancel (getExistingSkus table)
    with s | s | ⟨s, msg⟩ <;>
  simp [importProductsFromCsv, importFinish, hP, resState]

theorem import_imported_eq (rows : List Row) (table : List DBRow) (cancel : Nat → Bool)
    (imp tot : Nat) :
    (importProductsFromCsv (.ok rows) table cancel).result = .ok imp tot →
      imp = (resState (processBatches (preprocessDataframe rows) table cancel
        (getExistingSkus table))).imported := by
  rcases hP : processBatches (preprocessDataframe rows) table cancel (getExistingSkus table)
    with s | s | ⟨s, msg⟩ <;>
  simp [importProductsFromCsv, importFinish, hP, resState] <;>
  intro h _ <;> exact h.symm

theorem import_records_shape (rows : List Row) (table : List DBRow) (cancel : Nat → Bool) :
    ∃ term, (importProductsFromCsv (.ok rows) table cancel).records =
      loadingRecord :: preprocRecord ::
        (resState (processBatches (preprocessDataframe rows) table cancel
          (getExistingSkus table))).records ++ [term] ∧
      term.completed = true ∧ (term.progress = 100 → ∃ imp, term = successRecord imp) := by
  rcases hP : processBatches (preprocessDataframe rows) table cancel (getExistingSkus table)
    with s | s | ⟨s, msg⟩
  · exact ⟨successRecord s.imported, by simp [importProductsFromCsv, importFinish, hP, resState], rfl,
      fun _ => ⟨s.imported, rfl⟩⟩
  · exact ⟨successRecord s.imported, by simp [importProductsFromCsv, importFinish, hP, resState], rfl,
      fun _ => ⟨s.imported, rfl⟩⟩
  · exact ⟨errorRecord msg, by simp [importProductsFromCsv, importFinish, hP, resState], rfl,
      fun h => absurd h (by simp [errorRecord])⟩

/-- Structure of a parse-successful run: the final table is the initial
table plus a block of new rows, each new row's sku missed the snapshot and
stems from a preprocessed row, and an ok result reports exactly the
number of new rows. -/
theorem import_structure (rows : List Row) (table : List DBRow) (cancel : Nat → Bool) :
    ∃ new, (importProductsFromCsv (.ok rows) table cancel).table = table ++ new ∧
      (∀ p ∈ new, p.sku ∉ getExistingSkus table ∧ p.active = true ∧
        ∃ r ∈ preprocessDataframe rows, p.name = r.name ∧ p.sku = pyLower r.sku ∧
          p.description = r.description) ∧
      (∀ imp tot, (importProductsFromCsv (.ok rows) table cancel).result = .ok imp tot →
        imp = new.length) := by
  obtain ⟨new, h1, h2, h3, _⟩ := pb_structure cancel (preprocessDataframe rows).length batchSize
    (chunks batchSize (preprocessDataframe rows)) 0
    ⟨0, getExistingSkus table, table, []⟩
  rw [chunks_flatten batchSize batchSize_pos] at h3
  refine ⟨new, ?_, ?_, ?_⟩
  · rw [import_table_eq]
    unfold processBatches
    exact h1
  · exact h3
  · intro imp tot h
    have h4 := import_imported_eq rows table cancel imp tot h
    unfold processBatches at h4
    rw [h4, h2]
    simp


/-- C1: evaluating the import at the spec's scenario file (empty table,
batch size 5000 ≥ 3) yields imported = 2, but the persisted sku-1 row
carries the FIRST occurrence's payload ("A", "d1"), not the later
("B", "d2") the claim requires: drop_duplicates runs on the raw sku
before normalization, and rows whose skus agree only after normalization
are resolved first-wins by the existing-sku set. -/
theorem C1_dedup_scenario :
    importProductsFromCsv (.ok scenarioRows) [] cancelNone =
      ⟨.ok 2 3, [⟨"A", "sku-1", "d1", true⟩, ⟨"C", "sku-2", "d3", true⟩],
        [loadingRecord, preprocRecord, batchRecord 3 5000 0 2, successRecord 2], true⟩ ∧
    ¬ ((⟨"B", "sku-1", "d2", true⟩ : DBRow) ∈
        (importProductsFromCsv (.ok scenarioRows) [] cancelNone).table) :=
  ⟨rfl, by decide⟩

/-- C2: a run whose cancellation flag is set at the first batch boundary
publishes the cancelled terminal record (completed = true) and then the
driver, unable to tell a cancelled return from a normal one, overwrites
it with a progress-100 success record: the cancelled terminal record is
not final, refuting the claim's frozen-after-completed invariant. -/
theorem C2_two_terminal_records :
    importProductsFromCsv (.ok [⟨"A", "x", "d"⟩]) [] (fun _ => true) =
      ⟨.ok 0 1, [], [loadingRecord, preprocRecord, cancelledRecord, successRecord 0], true⟩ ∧
    cancelledRecord.completed = true ∧ (successRecord 0).completed = true ∧
    (successRecord 0).cancelled = false ∧ (successRecord 0).progress = 100 ∧
    successRecord 0 ≠ cancelledRecord :=
  ⟨rfl, rfl, rfl, rfl, rfl, by decide⟩

/-- C3: when the write layer reports a uniqueness conflict at commit time
(modelled by the race in which sku "x" was inserted by a concurrent job
after this job's snapshot was taken, so the table holds "x" while the
passed existing_skus set is empty), _process_batches has no handler: the
batch is not continued and the conflicting row is not merely dropped —
the integrity error escapes as a job-level failure. -/
theorem C3_conflict_escalates :
    processBatches [⟨"A", "x", "d"⟩] [⟨"P", "x", "old", true⟩] cancelNone [] =
      .failedRes ⟨0, [], [⟨"P", "x", "old", true⟩], []⟩
        "UNIQUE constraint failed: products.sku" ∧
    importFinish 1 (processBatches [⟨"A", "x", "d"⟩] [⟨"P", "x", "old", true⟩] cancelNone []) =
      ⟨.raised "UNIQUE constraint failed: products.sku", [⟨"P", "x", "old", true⟩],
        loadingRecord :: preprocRecord :: [] ++
          [errorRecord "UNIQUE constraint failed: products.sku"], false⟩ :=
  ⟨rfl, rfl⟩

/-- C4 (counterexample): an unreadable file publishes the loading record
(progress 5) and then the failure terminal record with progress 0, so the
published progress sequence [5, 0], which includes the failure terminal
record, is not monotonically non-decreasing. -/
theorem C4_counterexample :
    (importProductsFromCsv (.error "boom") [] cancelNone).records.map Record.progress =
      [5, 0] ∧
    ¬ List.Pairwise (· ≤ ·)
        ((importProductsFromCsv (.error "boom") [] cancelNone).records.map Record.progress) :=
  ⟨rfl, by decide⟩

/-- C5: importing the already-normalized file [("A","x","d1"),("B","x","d2")]
keeps the last occurrence ("B","d2"), while importing its variant
[("A","X","d1"),("B","x","d2")] — whose skus differ only in letter case
and normalize to the same values — keeps the first occurrence ("A","d1"):
the two runs produce different tables, refuting commutation with
normalization (dedup runs on the raw sku before normalization). -/
theorem C5_normalization_not_commuting :
    (importProductsFromCsv (.ok [⟨"A", "x", "d1"⟩, ⟨"B", "x", "d2"⟩]) [] cancelNone).table =
      [⟨"B", "x", "d2", true⟩] ∧
    (importProductsFromCsv (.ok [⟨"A", "X", "d1"⟩, ⟨"B", "x", "d2"⟩]) [] cancelNone).table =
      [⟨"A", "x", "d1", true⟩] ∧
    pyLower (pyStrip "X") = pyLower (pyStrip "x") ∧
    (importProductsFromCsv (.ok [⟨"A", "x", "d1"⟩, ⟨"B", "x", "d2"⟩]) [] cancelNone).table ≠
      (importProductsFromCsv (.ok [⟨"A", "X", "d1"⟩, ⟨"B", "x", "d2"⟩]) [] cancelNone).table :=
  ⟨rfl, rfl, by decide, by decide⟩

/-- C8 (counterexample): on an unreadable file the run does publish the
failure record and writes nothing, but its result is the re-raised
exception — the raised outcome models the `raise` at the end of the
except-branch, so the exception does propagate past
import_products_from_csv, refuting the no-propagation conjunct. -/
theorem C8_counterexample :
    (importProductsFromCsv (.error "No such file or directory") [] cancelNone).result =
      .raised "No such file or directory" ∧
    (importProductsFromCsv (.error "No such file or directory") [] cancelNone).table = [] ∧
    (importProductsFromCsv (.error "No such file or directory") [] cancelNone).records =
      [loadingRecord, errorRecord "No such file or directory"] :=
  ⟨rfl, rfl, rfl⟩

/-- C8 (amended): on an input error the job immediately publishes the
failure terminal record carrying the descriptive message, no rows are
written to the table, the source file is kept, and the exception is then
re-raised to import_products_from_csv's caller (the fire-and-forget
executor), instead of being swallowed at the component boundary. -/
theorem C8_amended (msg : String) (table : List DBRow) (cancel : Nat → Bool) :
    importProductsFromCsv (.error msg) table cancel =
      ⟨.raised msg, table, [loadingRecord, errorRecord msg], false⟩ := rfl

/-- C9 (counterexample): create_product stores the sku lowercased but NOT
trimmed: creating with sku " ABC " persists " abc ", which differs from
the trimmed-and-lowercased "abc" the claim requires. -/
theorem C9_counterexample :
    create_product [] "N" " ABC " "" true =
      .ok ([⟨1, "N", " abc ", "", true⟩], ⟨1, "N", " abc ", "", true⟩) ∧
    pyLower (pyStrip " ABC ") = "abc" ∧ (" abc " : String) ≠ "abc" :=
  ⟨rfl, by decide, by decide⟩


/-- C7 (counterexample): the skip-condition is the lowered-only snapshot
SELECT LOWER(sku), not the trimmed-and-lowercased one the claim states —
against a pre-existing table holding sku " abc " (reachable through
create_product, which does not trim), the file row with sku "abc" has
the same normalized (trimmed and lowercased) SKU as the stored row, yet
it is inserted and counted as imported rather than silently skipped:
" abc " survives LOWER unchanged, so the staged "abc" misses the
snapshot, and the raw-equality UNIQUE constraint does not fire either. -/
theorem C7_counterexample :
    pyLower (pyStrip "abc") = pyLower (pyStrip " abc ") ∧
    (importProductsFromCsv (.ok [⟨"A", "abc", "d"⟩]) [⟨"P", " abc ", "old", true⟩]
        cancelNone).table =
      [⟨"P", " abc ", "old", true⟩, ⟨"A", "abc", "d", true⟩] ∧
    (importProductsFromCsv (.ok [⟨"A", "abc", "d"⟩]) [⟨"P", " abc ", "old", true⟩]
        cancelNone).result = .ok 1 1 :=
  ⟨by decide, rfl, rfl⟩

/-- C7 (amended): the import only inserts — for every parsed file,
pre-existing table and cancellation pattern, the final table is the
initial table followed by the newly inserted rows (no pre-existing row
is updated, moved or deleted), every inserted row's sku missed the
initial SELECT LOWER(sku) snapshot — a file row is silently skipped and
not counted exactly when its lowercased sku is already in that lowered
(but not trimmed) snapshot — and an ok result counts exactly the
inserted rows. -/
theorem C7_insert_only (parse : Except String (List Row)) (table : List DBRow)
    (cancel : Nat → Bool) :
    (importProductsFromCsv parse table cancel).table =
      table ++ (importProductsFromCsv parse table cancel).table.drop table.length ∧
    (∀ p ∈ (importProductsFromCsv parse table cancel).table.drop table.length,
      p.sku ∉ getExistingSkus table) ∧
    (∀ imp tot, (importProductsFromCsv parse table cancel).result = .ok imp tot →
      (importProductsFromCsv parse table cancel).table.length = table.length + imp) := by
  rcases parse with msg | rows
  · refine ⟨by simp [importProductsFromCsv], ?_, ?_⟩
    · intro p hp
      simp [importProductsFromCsv] at hp
    · intro imp tot h
      simp [importProductsFromCsv] at h
  · obtain ⟨new, h1, h2, h3⟩ := import_structure rows table cancel
    have hdrop : (importProductsFromCsv (.ok rows) table cancel).table.drop table.length = new := by
      rw [h1, List.drop_left]
    refine ⟨by rw [hdrop, h1], ?_, ?_⟩
    · intro p hp
      rw [hdrop] at hp
      exact (h2 p hp).1
    · intro imp tot h
      rw [h1, List.length_append, h3 imp tot h]

/-- C7 (witness): instantiating the frame theorem at the scenario run. -/
theorem C7_insert_only_witness :
    (importProductsFromCsv (.ok scenarioRows) [] cancelNone).table.length =
      ([] : List DBRow).length + 2 :=
  (C7_insert_only (.ok scenarioRows) [] cancelNone).2.2 2 3 rfl

/-- C9 (amended): the bulk import path does persist every inserted sku as
the trimmed-and-lowercased original sku, but the direct create_product
path only lowercases — it persists sku.lower() without stripping. -/
theorem C9_amended :
    (∀ rows table cancel,
      ∀ p ∈ (importProductsFromCsv (.ok rows) table cancel).table.drop table.length,
        ∃ r ∈ rows, p.sku = pyLower (pyStrip r.sku)) ∧
    (∀ table name sku description active t' p,
      create_product table name sku description active = .ok (t', p) →
        p.sku = pyLower sku) := by
  constructor
  · intro rows table cancel p hp
    obtain ⟨new, h1, h2, _⟩ := import_structure rows table cancel
    have hdrop : (importProductsFromCsv (.ok rows) table cancel).table.drop table.length = new := by
      rw [h1, List.drop_left]
    rw [hdrop] at hp
    obtain ⟨_, _, r, hr, _, hsku, _⟩ := h2 p hp
    obtain ⟨r₀, hr₀, _, hsku₀, _⟩ := preprocess_src rows r hr
    exact ⟨r₀, hr₀, by rw [hsku, hsku₀, pyLower_pyLower]⟩
  · intro table name sku description active t' p h
    by_cases hc : ∃ q ∈ table, pyLower q.sku = pyLower sku
    · simp only [create_product, if_pos hc] at h
      cases h
    · simp only [create_product, if_neg hc] at h
      cases h
      rfl

/-- C9 (witness): instantiating the amended theorem at the concrete
create_product call with sku " ABC ". -/
theorem C9_amended_witness :
    (⟨1, "N", " abc ", "", true⟩ : Product).sku = pyLower " ABC " :=
  C9_amended.2 [] "N" " ABC " "" true [⟨1, "N", " abc ", "", true⟩]
    ⟨1, "N", " abc ", "", true⟩ rfl


/-- C6: importing the same parsed file a second time, against the table
left by the first (uncancelled, hence successful) import, leaves the
table unchanged and reports 0 imported rows. -/
theorem C6_reimport_idempotent (rows : List Row) (table : List DBRow) :
    (importProductsFromCsv (.ok rows)
        (importProductsFromCsv (.ok rows) table cancelNone).table cancelNone).table =
      (importProductsFromCsv (.ok rows) table cancelNone).table ∧
    (importProductsFromCsv (.ok rows)
        (importProductsFromCsv (.ok rows) table cancelNone).table cancelNone).result =
      .ok 0 rows.length := by
  have hInv₀ : ∀ t ∈ table, pyLower t.sku ∈ getExistingSkus table := by
    intro t ht
    exact List.mem_map_of_mem _ ht
  obtain ⟨s₁, hs₁⟩ := pb_done_of_cancelNone (preprocessDataframe rows).length batchSize
    (chunks batchSize (preprocessDataframe rows)) 0
    ⟨0, getExistingSkus table, table, []⟩ hInv₀
  have hP₁ : processBatches (preprocessDataframe rows) table cancelNone
      (getExistingSkus table) = .done s₁ := by
    unfold processBatches
    exact hs₁
  have hr₁ : importProductsFromCsv (.ok rows) table cancelNone =
      ⟨.ok s₁.imported rows.length, s₁.table,
        loadingRecord :: preprocRecord :: s₁.records ++ [successRecord s₁.imported], true⟩ := by
    simp [importProductsFromCsv, importFinish, hP₁]
  have hcov : ∀ r ∈ preprocessDataframe rows, pyLower r.sku ∈ s₁.existing := by
    intro r hr
    have := pb_covers (preprocessDataframe rows).length batchSize
      (chunks batchSize (preprocessDataframe rows)) 0
      ⟨0, getExistingSkus table, table, []⟩ hInv₀ r
      (by rw [chunks_flatten batchSize batchSize_pos]; exact hr)
    rw [hs₁] at this
    exact this
  have hex2 : ∀ x ∈ s₁.existing, x ∈ getExistingSkus s₁.table := by
    intro x hx
    have := pb_existing_in_table (preprocessDataframe rows).length batchSize
      (chunks batchSize (preprocessDataframe rows)) 0
      ⟨0, getExistingSkus table, table, []⟩ hInv₀ (fun y hy => hy) x
    rw [hs₁] at this
    exact this hx
  obtain ⟨hT, hI, hD⟩ := pb_skipAll cancelNone (preprocessDataframe rows).length batchSize
    (chunks batchSize (preprocessDataframe rows)) 0
    ⟨0, getExistingSkus s₁.table, s₁.table, []⟩
    (by
      intro r hr
      rw [chunks_flatten batchSize batchSize_pos] at hr
      exact hex2 _ (hcov r hr))
  obtain ⟨recs, hdone⟩ := hD (fun _ => rfl)
  have hP₂ : processBatches (preprocessDataframe rows) s₁.table cancelNone
      (getExistingSkus s₁.table) = .done ⟨0, getExistingSkus s₁.table, s₁.table, recs⟩ := by
    unfold processBatches
    exact hdone
  have hr₂ : importProductsFromCsv (.ok rows) s₁.table cancelNone =
      ⟨.ok 0 rows.length, s₁.table,
        loadingRecord :: preprocRecord :: recs ++ [successRecord 0], true⟩ := by
    simp [importProductsFromCsv, importFinish, hP₂]
  rw [hr₁]
  simp only
  rw [hr₂]
  exact ⟨rfl, rfl⟩


theorem rp_cons_running (r : Record) (rs : List Record) (h : r.completed = false) :
    runningProgresses (r :: rs) = r.progress :: runningProgresses rs := by
  simp [runningProgresses, List.filter_cons, h]

theorem rp_cons_completed (r : Record) (rs : List Record) (h : r.completed = true) :
    runningProgresses (r :: rs) = runningProgresses rs := by
  simp [runningProgresses, List.filter_cons, h]

theorem rp_mem (rs : List Record) (x : Nat) :
    x ∈ runningProgresses rs → ∃ r ∈ rs, r.completed = false ∧ r.progress = x := by
  intro hx
  simp only [runningProgresses, List.mem_map, List.mem_filter] at hx
  obtain ⟨r, ⟨hr, hc⟩, hp⟩ := hx
  exact ⟨r, hr, by simpa using hc, hp⟩

/-- Every record the batch loop of a whole run publishes is the cancelled
terminal record or a batch progress record. -/
theorem run_batch_records (rows : List Row) (table : List DBRow) (cancel : Nat → Bool) :
    ∀ rec ∈ (resState (processBatches (preprocessDataframe rows) table cancel
        (getExistingSkus table))).records,
      rec = cancelledRecord ∨
        ∃ i imp, rec = batchRecord (preprocessDataframe rows).length batchSize i imp := by
  intro rec h
  unfold processBatches at h
  rcases pb_records_mem cancel (preprocessDataframe rows).length batchSize
    (chunks batchSize (preprocessDataframe rows)) 0
    ⟨0, getExistingSkus table, table, []⟩ rec h with h' | h' | h'
  · exact absurd h' (List.not_mem_nil rec)
  · exact Or.inl h'
  · exact Or.inr h'

/-- The batch records of a whole run are published in non-decreasing
progress order. -/
theorem run_batch_pairwise (rows : List Row) (table : List DBRow) (cancel : Nat → Bool) :
    List.Pairwise (· ≤ ·)
      (runningProgresses (resState (processBatches (preprocessDataframe rows) table cancel
        (getExistingSkus table))).records) := by
  unfold processBatches
  exact pb_pairwise cancel (preprocessDataframe rows).length batchSize
    (chunks batchSize (preprocessDataframe rows)) 0
    ⟨0, getExistingSkus table, table, []⟩
    (by simp [runningProgresses]) (by simp [runningProgresses])

/-- C4 (amended): across one run's published records, the not-yet-completed
records carry monotonically non-decreasing progress values, every
not-yet-completed record has progress at most 95, and a record with
progress 100 can only be the success-path completion record (completed,
error-free, not flagged cancelled); the failure and cancellation terminal
records however carry progress 0, so monotonicity does not extend to
them. -/
theorem C4_amended (parse : Except String (List Row)) (table : List DBRow)
    (cancel : Nat → Bool) :
    List.Pairwise (· ≤ ·)
      (runningProgresses (importProductsFromCsv parse table cancel).records) ∧
    (∀ r ∈ (importProductsFromCsv parse table cancel).records,
      r.completed = false → r.progress ≤ 95) ∧
    (∀ r ∈ (importProductsFromCsv parse table cancel).records, r.progress = 100 →
      r.completed = true ∧ r.error = false ∧ r.cancelled = false ∧
        ∃ imp, r = successRecord imp) := by
  rcases parse with msg | rows
  · refine ⟨?_, ?_, ?_⟩
    · show List.Pairwise (· ≤ ·) (runningProgresses [loadingRecord, errorRecord msg])
      rw [rp_cons_running loadingRecord _ rfl, rp_cons_completed (errorRecord msg) [] rfl]
      exact List.pairwise_singleton _ _
    · intro r hr
      rcases List.mem_cons.1 hr with rfl | hr
      · intro _; norm_num [loadingRecord]
      · rcases List.mem_singleton.1 hr with rfl
        intro h
        simp [errorRecord] at h
    · intro r hr
      rcases List.mem_cons.1 hr with rfl | hr
      · intro h; simp [loadingRecord] at h
      · rcases List.mem_singleton.1 hr with rfl
        intro h
        simp [errorRecord] at h
  · obtain ⟨term, hrec, htc, ht100⟩ := import_records_shape rows table cancel
    have hbatch := run_batch_records rows table cancel
    have hge10 : ∀ x ∈ runningProgresses (resState (processBatches (preprocessDataframe rows)
        table cancel (getExistingSkus table))).records, 10 ≤ x := by
      intro x hx
      obtain ⟨rec, hrm, hcf, hpx⟩ := rp_mem _ x hx
      rcases hbatch rec hrm with rfl | ⟨i, imp, rfl⟩
      · simp [cancelledRecord] at hcf
      · rw [← hpx]
        exact ten_le_batchProgress _ _ _
    refine ⟨?_, ?_, ?_⟩
    · rw [hrec, runningProgresses_append, rp_cons_running loadingRecord _ rfl,
        rp_cons_running preprocRecord _ rfl, rp_cons_completed term [] htc]
      have h0 : runningProgresses ([] : List Record) = [] := rfl
      rw [h0, List.append_nil]
      refine List.pairwise_cons.2 ⟨?_, List.pairwise_cons.2 ⟨?_, run_batch_pairwise rows table cancel⟩⟩
      · intro x hx
        rcases List.mem_cons.1 hx with rfl | hx
        · norm_num [loadingRecord, preprocRecord]
        · have := hge10 x hx
          norm_num [loadingRecord]
          omega
      · intro x hx
        have := hge10 x hx
        norm_num [preprocRecord]
        omega
    · intro r hr
      rw [hrec] at hr
      rcases List.mem_append.1 hr with hr | hr
      · rcases List.mem_cons.1 hr with rfl | hr
        · intro _; norm_num [loadingRecord]
        rcases List.mem_cons.1 hr with rfl | hr
        · intro _; norm_num [preprocRecord]
        rcases hbatch r hr with rfl | ⟨i, imp, rfl⟩
        · intro h; simp [cancelledRecord] at h
        · intro _
          exact batchProgress_le_95 _ _ _
      · rcases List.mem_singleton.1 hr with rfl
        intro h
        rw [htc] at h
        cases h
    · intro r hr
      rw [hrec] at hr
      rcases List.mem_append.1 hr with hr | hr
      · rcases List.mem_cons.1 hr with rfl | hr
        · intro h; simp [loadingRecord] at h
        rcases List.mem_cons.1 hr with rfl | hr
        · intro h; simp [preprocRecord] at h
        rcases hbatch r hr with rfl | ⟨i, imp, rfl⟩
        · intro h; simp [cancelledRecord] at h
        · intro h
          have := batchProgress_le_95 (preprocessDataframe rows).length batchSize i
          have hp : (batchRecord (preprocessDataframe rows).length batchSize i imp).progress =
            batchProgress (preprocessDataframe rows).length batchSize i := rfl
          rw [hp] at h
          omega
      · rcases List.mem_singleton.1 hr with rfl
        intro h
        obtain ⟨imp, rfl⟩ := ht100 h
        exact ⟨rfl, rfl, rfl, imp, rfl⟩

/-- C4 (witness): instantiating the amended theorem at the failing run,
discharging its membership and non-completion hypotheses on the loading
record. -/
theorem C4_amended_witness :
    loadingRecord ∈ (importProductsFromCsv (.error "x") [] cancelNone).records ∧
    loadingRecord.progress ≤ 95 :=
  ⟨by decide, (C4_amended (.error "x") [] cancelNone).2.1 loadingRecord (by decide) rfl⟩


/-- C10: for a table with distinct identifiers (the database's primary
key invariant), delete_product of an absent id returns False and leaves
the table untouched, while delete_product of a present id returns True
and removes exactly that row, leaving every other row unchanged. -/
theorem C10_delete_product (table : List Product) (pid : Nat)
    (hnd : (table.map (fun p => p.id)).Nodup) :
    ((∀ p ∈ table, p.id ≠ pid) → delete_product table pid = (false, table)) ∧
    ((∃ p ∈ table, p.id = pid) →
      (delete_product table pid).1 = true ∧
      (delete_product table pid).2 = table.filter (fun p => p.id != pid)) := by
  induction table with
  | nil =>
    refine ⟨fun _ => rfl, ?_⟩
    rintro ⟨p, hp, _⟩
    exact absurd hp (List.not_mem_nil p)
  | cons q t ih =>
    simp only [List.map_cons, List.nodup_cons] at hnd
    obtain ⟨hq_nin, hnd'⟩ := hnd
    by_cases hq : q.id = pid
    · have hfind : (q :: t).find? (fun p => p.id == pid) = some q := by
        simp [List.find?_cons, hq]
      have herase : (q :: t).eraseP (fun p => p.id == pid) = t := by
        rw [List.eraseP_cons_of_pos]
        simp [hq]
      refine ⟨?_, ?_⟩
      · intro hall
        exact absurd hq (hall q (List.mem_cons_self _ _))
      · intro _
        refine ⟨?_, ?_⟩
        · simp [delete_product, hfind]
        · have hfilter : t.filter (fun p => p.id != pid) = t := by
            apply List.filter_eq_self.2
            intro p hp
            simp only [bne_iff_ne, ne_eq]
            intro hc
            have hmem : pid ∈ List.map (fun p => p.id) t := hc ▸ List.mem_map_of_mem _ hp
            exact hq_nin (hq ▸ hmem)
          simp [delete_product, hfind, herase, List.filter_cons, hq, hfilter]
    · have hfind : (q :: t).find? (fun p => p.id == pid) = t.find? (fun p => p.id == pid) := by
        simp [List.find?_cons, hq]
      refine ⟨?_, ?_⟩
      · intro hall
        have hall' : ∀ p ∈ t, p.id ≠ pid := fun p hp => hall p (List.mem_cons_of_mem _ hp)
        have ht := (ih hnd').1 hall'
        have htfind : t.find? (fun p => p.id == pid) = none := by
          rcases hf : t.find? (fun p => p.id == pid) with _ | y
          · exact hf
          · have hy := List.find?_some hf
            have hym := List.mem_of_find?_eq_some hf
            exact absurd (by simpa using hy) (hall' y hym)
        simp [delete_product, hfind, htfind]
      · rintro ⟨p, hp, hpid⟩
        rcases List.mem_cons.1 hp with rfl | hp'
        · exact absurd hpid hq
        have ⟨ih1, ih2⟩ := (ih hnd').2 ⟨p, hp', hpid⟩
        rcases hf : t.find? (fun p => p.id == pid) with _ | y
        · rw [delete_product, hf] at ih1
          cases ih1
        · have herase : (q :: t).eraseP (fun p => p.id == pid) =
              q :: t.eraseP (fun p => p.id == pid) := by
            rw [List.eraseP_cons_of_neg]
            simp [hq]
          have ih2' : t.eraseP (fun p => p.id == pid) = t.filter (fun p => p.id != pid) := by
            rw [delete_product, hf] at ih2
            exact ih2
          refine ⟨?_, ?_⟩
          · simp [delete_product, hfind, hf]
          · simp only [delete_product, hfind, hf, herase, ih2']
            rw [List.filter_cons_of_pos]
            simp [hq]

/-- C10 (witness): instantiating the theorem at a concrete two-row table,
discharging the distinct-identifier hypothesis and the presence of id 1. -/
theorem C10_delete_product_witness :
    (([⟨1, "a", "s", "", true⟩, ⟨2, "b", "t", "", true⟩] : List Product).map
      (fun p => p.id)).Nodup ∧
    (delete_product [⟨1, "a", "s", "", true⟩, ⟨2, "b", "t", "", true⟩] 1).1 = true ∧
    (delete_product [⟨1, "a", "s", "", true⟩, ⟨2, "b", "t", "", true⟩] 1).2 =
      ([⟨1, "a", "s", "", true⟩, ⟨2, "b", "t", "", true⟩] : List Product).filter
        (fun p => p.id != 1) :=
  ⟨by decide, (C10_delete_product [⟨1, "a", "s", "", true⟩, ⟨2, "b", "t", "", true⟩] 1
      (by decide)).2 ⟨⟨1, "a", "s", "", true⟩, by decide, rfl⟩⟩

end ProductImporter
